import Mathlib

/-!
# Region allocator of the memory-management simulation

Shallow embedding of the allocator core of `src/main.cpp`:
`tryAllocMem` (first-fit allocation), `tryFreeMem` (range release with the
four-rule overlap chain and the restart-scan cleanup) and the defragment loop
of `WinMain`.

Modelling conventions.
* `int` values are mathematical integers (`Int`).  Signed overflow is
  undefined behaviour in C++, so the embedding describes the runs in which no
  addition or subtraction overflows.  For `end = pos + size` in `tryFreeMem`
  a wrapping sum would change nothing: with `pos >= 0` the sum can only wrap
  to a negative value, which the check `end > 0` rejects, as the check
  `end <= capacity` rejects the unwrapped sum.
* `std::list<Address>` is a `List Address`; an iterator is a position in the
  list.  `insert(it, x)` places `x` immediately before the element `it`
  designates, and `push_back` appends.
* `tryAllocMem` and `tryFreeMem` below are the bodies of the two functions
  after the integers have been extracted; `tryAllocMemText` and
  `tryFreeMemText` put the extraction (`ss >> size`, `ss >> pos >> size`) in
  front of them, with the value an uninitialised local holds as a parameter.
-/

namespace MemSim

/-- An occupied block, `struct Address { int pos, size; }`. -/
structure Address where
  pos : Int
  size : Int
deriving DecidableEq, Repr

/-- The allocator state, the fields `blocks` and `capacity` of `struct Memory`
(the two colour fields play no part in the allocator). -/
structure Memory where
  blocks : List Address
  capacity : Int
deriving DecidableEq, Repr

/-- Exclusive upper bound `pos + size` of a block. -/
def Address.endPos (a : Address) : Int := a.pos + a.size

/-! ## tryAllocMem -/

/-- The `for` loop of `tryAllocMem` (lines 186-193), started at some element
with the running value of `prev`.  The result is the rewritten list, the flag
`inserted`, and the value of `prev` when the loop is left. -/
def allocScan (size : Int) : Address → List Address → List Address × Bool × Address
  | prev, [] => ([], false, prev)
  | prev, e :: rest =>
    if e.pos - (prev.pos + prev.size) ≥ size then
      (⟨prev.pos + prev.size, size⟩ :: e :: rest, true, prev)
    else
      let r := allocScan size e rest
      (e :: r.1, r.2.1, r.2.2)

/-- The body of `tryAllocMem` after `size` has been read (lines 183-198). -/
def tryAllocMem (mem : Memory) (size : Int) : Memory :=
  if size > 0 ∧ size ≤ mem.capacity then
    let r := allocScan size ⟨0, 0⟩ mem.blocks
    let prev := r.2.2
    if r.2.1 = false ∧ mem.capacity - (prev.pos + prev.size) ≥ size then
      { mem with blocks := r.1 ++ [⟨prev.pos + prev.size, size⟩] }
    else
      { mem with blocks := r.1 }
  else mem

/-! ## tryFreeMem -/

/-- One iteration of the rule chain of `tryFreeMem` (lines 208-227) on the
block `b`: the blocks that stand in the list in place of `b` afterwards.  In
the fourth rule `insert(b, ...)` puts the new block before `b`. -/
def freeBlock (pos end_ : Int) (b : Address) : List Address :=
  let bpos := b.pos
  let bend := b.pos + b.size
  if pos ≤ bpos ∧ end_ ≥ bend then
    [⟨b.pos, 0⟩]
  else if pos < bpos ∧ end_ ≥ bpos then
    [⟨end_, bend - end_⟩]
  else if pos < bend ∧ end_ ≥ bend then
    [⟨b.pos, pos - bpos⟩]
  else if pos ≥ bpos ∧ end_ ≤ bend then
    [⟨end_, bend - end_⟩, ⟨b.pos, pos - bpos⟩]
  else
    [b]

/-- The `for` loop over the blocks (lines 207-228).  A block inserted by the
fourth rule lies before the iterator, so the loop never visits it. -/
def freeScan (pos end_ : Int) : List Address → List Address
  | [] => []
  | b :: rest => freeBlock pos end_ b ++ freeScan pos end_ rest

/-- The inner `for` loop of the cleanup (lines 232-238): erase the first block
with `size <= 0`; `none` when the scan reaches the end (`cleaned` stays true). -/
def eraseFirstNonPos : List Address → Option (List Address)
  | [] => none
  | e :: rest =>
    if e.size ≤ 0 then some rest
    else (eraseFirstNonPos rest).map (fun r => e :: r)

/-- The `do ... while (!cleaned)` loop (lines 229-239): restart the scan after
every erase until a scan finds nothing to erase. -/
def cleanup (l : List Address) : List Address :=
  match h : eraseFirstNonPos l with
  | none => l
  | some l' => cleanup l'
termination_by l.length
decreasing_by
  have key : ∀ (l l' : List Address), eraseFirstNonPos l = some l' → l'.length < l.length := by
    intro l
    induction l with
    | nil => intro l' h; simp [eraseFirstNonPos] at h
    | cons e rest ih =>
      intro l' h
      unfold eraseFirstNonPos at h
      split at h
      · cases h; simp
      · cases hr : eraseFirstNonPos rest with
        | none => simp [hr] at h
        | some r =>
          simp [hr] at h
          subst h
          have := ih r hr
          simp
          omega
  exact key l l' h

/-- The body of `tryFreeMem` after `pos` and `size` have been read
(lines 204-240). -/
def tryFreeMem (mem : Memory) (pos size : Int) : Memory :=
  let end_ := pos + size
  if pos ≥ 0 ∧ pos < mem.capacity ∧ end_ > 0 ∧ end_ ≤ mem.capacity then
    { mem with blocks := cleanup (freeScan pos end_ mem.blocks) }
  else mem

/-! ## Defragment -/

/-- The defragment loop (lines 336-340), started with the running value of the
local `size`. -/
def defragLoop : Int → List Address → List Address
  | _, [] => []
  | size, e :: rest => ⟨size, e.size⟩ :: defragLoop (size + e.size) rest

/-- The defragment step of `WinMain` (`int size = 0;` and the loop). -/
def defrag (mem : Memory) : Memory :=
  { mem with blocks := defragLoop 0 mem.blocks }

/-- The state `WinMain` builds before the event loop (lines 246-252). -/
def initMem : Memory := ⟨[⟨1, 3⟩, ⟨8, 5⟩, ⟨22, 1⟩], 25⟩

/-! ## Invariants of the specification -/

/-- I1: any two distinct regions are disjoint. -/
def I1 (mem : Memory) : Prop :=
  mem.blocks.Pairwise (fun a b => a.endPos ≤ b.pos ∨ b.endPos ≤ a.pos)

/-- I2: the regions are sorted by ascending start. -/
def I2 (mem : Memory) : Prop :=
  mem.blocks.Pairwise (fun a b => a.pos ≤ b.pos)

/-- I3: every region lies inside `[0, capacity)` and has positive length. -/
def I3 (mem : Memory) : Prop :=
  ∀ a ∈ mem.blocks, 0 ≤ a.pos ∧ a.endPos ≤ mem.capacity ∧ 0 < a.size

/-- I4: no region has length `<= 0`. -/
def I4 (mem : Memory) : Prop :=
  ∀ a ∈ mem.blocks, ¬ a.size ≤ 0

instance (mem : Memory) : Decidable (I1 mem) := by unfold I1; infer_instance
instance (mem : Memory) : Decidable (I2 mem) := by unfold I2; infer_instance
instance (mem : Memory) : Decidable (I3 mem) := by unfold I3; infer_instance
instance (mem : Memory) : Decidable (I4 mem) := by unfold I4; infer_instance

/-- The region `b` intersects the range `[pos, end_)`. -/
def intersects (b : Address) (pos end_ : Int) : Prop :=
  max b.pos pos < min (b.pos + b.size) end_

instance (b : Address) (pos end_ : Int) : Decidable (intersects b pos end_) := by
  unfold intersects; infer_instance

/-- The input check of `tryFreeMem` (line 206). -/
def freeAccepted (mem : Memory) (pos size : Int) : Prop :=
  pos ≥ 0 ∧ pos < mem.capacity ∧ pos + size > 0 ∧ pos + size ≤ mem.capacity

instance (mem : Memory) (pos size : Int) : Decidable (freeAccepted mem pos size) := by
  unfold freeAccepted; infer_instance

/-! ## Specification-side notions -/

/-- Lengths of the gaps of the address space, following the specification's
words: the range before the first region (from `prevEnd`), the ranges between
consecutive regions, and the range after the last region up to `capacity`
(the whole space when there are no regions). -/
def gapLengths (capacity : Int) : Int → List Address → List Int
  | prevEnd, [] => [capacity - prevEnd]
  | prevEnd, b :: rest => (b.pos - prevEnd) :: gapLengths capacity (b.pos + b.size) rest

/-- The range `[p, p + n)` is a free place for a region of length `n`: it lies
inside `[0, capacity)` and intersects no region of `mem`. -/
def fitsAt (mem : Memory) (n p : Int) : Prop :=
  0 ≤ p ∧ p + n ≤ mem.capacity ∧ ∀ b ∈ mem.blocks, ¬ intersects b p (p + n)

/-- The scan of `tryAllocMem` together with the trailing `push_back`, as one
recursion on the list; `pe` is `prev.pos + prev.size`. -/
def allocFrom (cap n : Int) : Int → List Address → List Address
  | pe, [] => if cap - pe ≥ n then [⟨pe, n⟩] else []
  | pe, e :: rest =>
    if e.pos - pe ≥ n then ⟨pe, n⟩ :: e :: rest
    else e :: allocFrom cap n (e.pos + e.size) rest

/-- Regions laid out in ascending order from `pe` up to `cap` without overlap:
each starts at or after the end of the one before it (the first at or after
`pe`), has positive length, and ends at or before `cap`. -/
def Packed (cap : Int) : Int → List Address → Prop
  | _, [] => True
  | pe, e :: rest =>
    pe ≤ e.pos ∧ 0 < e.size ∧ e.pos + e.size ≤ cap ∧ Packed cap (e.pos + e.size) rest

/-! ## Call sequences -/

/-- One user action of the event loop of `WinMain`: an `Allocate` text entry
(line 271), a `Free` text entry (line 274) or a click on the defragment button
(lines 335-340). -/
inductive Op where
  | allocate (n : Int)
  | free (pos size : Int)
  | defragment
deriving DecidableEq, Repr

/-- The effect of one action on the allocator state. -/
def step (mem : Memory) : Op → Memory
  | Op.allocate n => tryAllocMem mem n
  | Op.free pos size => tryFreeMem mem pos size
  | Op.defragment => defrag mem

/-- The state after a finite sequence of actions, first action first. -/
def run (mem : Memory) : List Op → Memory
  | [] => mem
  | op :: rest => run (step mem op) rest

/-- A `Free` action with a positive size; the other actions are unrestricted. -/
def Op.positiveFree : Op → Prop
  | Op.free _ size => 0 < size
  | _ => True

instance (op : Op) : Decidable op.positiveFree := by
  cases op <;> unfold Op.positiveFree <;> infer_instance

/-! ## The four rule conditions of `tryFreeMem` -/

/-- Condition of the first `if` (line 210), full containment. -/
def rule1 (pos end_ : Int) (b : Address) : Prop := pos ≤ b.pos ∧ end_ ≥ b.pos + b.size

/-- Condition of the second `if` (line 214), left overlap. -/
def rule2 (pos end_ : Int) (b : Address) : Prop := pos < b.pos ∧ end_ ≥ b.pos

/-- Condition of the third `if` (line 219), right overlap. -/
def rule3 (pos end_ : Int) (b : Address) : Prop := pos < b.pos + b.size ∧ end_ ≥ b.pos + b.size

/-- Condition of the fourth `if` (line 223), interior split. -/
def rule4 (pos end_ : Int) (b : Address) : Prop := pos ≥ b.pos ∧ end_ ≤ b.pos + b.size

instance (pos end_ : Int) (b : Address) : Decidable (rule1 pos end_ b) := by
  unfold rule1; infer_instance
instance (pos end_ : Int) (b : Address) : Decidable (rule2 pos end_ b) := by
  unfold rule2; infer_instance
instance (pos end_ : Int) (b : Address) : Decidable (rule3 pos end_ b) := by
  unfold rule3; infer_instance
instance (pos end_ : Int) (b : Address) : Decidable (rule4 pos end_ b) := by
  unfold rule4; infer_instance

/-! ## Further specification-side notions -/

/-- The address `x` lies in some region of the list. -/
def covers (l : List Address) (x : Int) : Prop :=
  ∃ b ∈ l, b.pos ≤ x ∧ x < b.pos + b.size

instance (l : List Address) (x : Int) : Decidable (covers l x) := by
  unfold covers; infer_instance

/-- The cleanup as the specification's design note words it: a single
order-preserving filtering pass that retains only the regions with positive
length. -/
def cleanupSinglePass (l : List Address) : List Address :=
  l.filter (fun a => decide (a.size > 0))

/-- Sum of the lengths of the regions. -/
def totalSize (l : List Address) : Int := (l.map Address.size).sum

/-! ## Text entry -/

/-- The part of a `std::stringstream` the extractions depend on: the characters
not yet read, and whether the stream is `good()` (neither `eofbit` nor
`failbit` is set). -/
structure IStream where
  chars : List Char
  good : Bool
deriving DecidableEq, Repr

/-- White space of the classic locale: space and the characters 9 to 13. -/
def isSpaceChar (c : Char) : Bool :=
  decide (c.toNat = 32) || (decide (9 ≤ c.toNat) && decide (c.toNat ≤ 13))

/-- Decimal digit. -/
def isDigitChar (c : Char) : Bool :=
  decide (48 ≤ c.toNat) && decide (c.toNat ≤ 57)

/-- Value of a run of decimal digits. -/
def digitsValue (ds : List Char) : Nat :=
  ds.foldl (fun acc c => 10 * acc + (c.toNat - 48)) 0

/-- The value stored in an `int` for a parsed value outside its range. -/
def clampInt (v : Int) : Int :=
  if v < -2147483648 then -2147483648 else if v > 2147483647 then 2147483647 else v

/-- The formatted extraction `ss >> x` of the C++ library for an `int` variable
that holds `old` before the call (the library is not part of the repository;
this follows the C++ standard's description of formatted input).  The stream's
sentry fails when the stream is not good, or when only white space is left; the
variable is then not assigned.  Otherwise an optional sign and a run of digits
are read: with no digit the extraction fails and stores 0; a value outside the
range of `int` is stored clamped and the extraction fails; reading up to the end
of the text sets `eofbit`. -/
def extractInt (st : IStream) (old : Int) : IStream × Int :=
  if st.good = false then (st, old)
  else
    match st.chars.dropWhile isSpaceChar with
    | [] => (⟨[], false⟩, old)
    | c :: cs =>
      let body := if c.toNat = 45 ∨ c.toNat = 43 then cs else c :: cs
      let ds := body.takeWhile isDigitChar
      let rest := body.dropWhile isDigitChar
      if ds.isEmpty then (⟨rest, false⟩, 0)
      else
        let v : Int := if c.toNat = 45 then - (digitsValue ds : Int) else (digitsValue ds : Int)
        (⟨rest, !rest.isEmpty && decide (clampInt v = v)⟩, clampInt v)

/-- The function `tryAllocMem` as called with the text `s` (lines 179-199):
`ss << s; int size; ss >> size;` and then the body.  `size0` is the value the
uninitialised local `size` holds before the extraction. -/
def tryAllocMemText (mem : Memory) (s : String) (size0 : Int) : Memory :=
  let r := extractInt ⟨s.toList, true⟩ size0
  tryAllocMem mem r.2

/-- The function `tryFreeMem` as called with the text `s` (lines 201-241):
`ss << s; int pos, size; ss >> pos >> size;` and then the body.  `pos0` and
`size0` are the values the uninitialised locals hold before the extractions. -/
def tryFreeMemText (mem : Memory) (s : String) (pos0 size0 : Int) : Memory :=
  let r1 := extractInt ⟨s.toList, true⟩ pos0
  let r2 := extractInt r1.1 size0
  tryFreeMem mem r1.2 r2.2

/-! ## The cleanup loop is a filter -/

theorem eraseFirstNonPos_length :
    ∀ (l l' : List Address), eraseFirstNonPos l = some l' → l'.length < l.length := by
  intro l
  induction l with
  | nil => intro l' h; simp [eraseFirstNonPos] at h
  | cons e rest ih =>
    intro l' h
    unfold eraseFirstNonPos at h
    split at h
    · cases h; simp
    · cases hr : eraseFirstNonPos rest with
      | none => simp [hr] at h
      | some r =>
        simp [hr] at h
        subst h
        have := ih r hr
        simp
        omega

theorem eraseFirstNonPos_none :
    ∀ l : List Address, eraseFirstNonPos l = none →
      l.filter (fun a => decide (0 < a.size)) = l := by
  intro l
  induction l with
  | nil => intro _; rfl
  | cons e rest ih =>
    intro h
    unfold eraseFirstNonPos at h
    split at h
    · cases h
    · rename_i hpos
      cases hr : eraseFirstNonPos rest with
      | none =>
        have hp : 0 < e.size := by omega
        simp [List.filter_cons, hp, ih hr]
      | some r => simp [hr] at h

theorem eraseFirstNonPos_some :
    ∀ (l l' : List Address), eraseFirstNonPos l = some l' →
      l'.filter (fun a => decide (0 < a.size)) = l.filter (fun a => decide (0 < a.size)) := by
  intro l
  induction l with
  | nil => intro l' h; simp [eraseFirstNonPos] at h
  | cons e rest ih =>
    intro l' h
    unfold eraseFirstNonPos at h
    split at h
    · rename_i hle
      cases h
      have hp : ¬ 0 < e.size := by omega
      simp [List.filter_cons, hp]
    · rename_i hpos
      cases hr : eraseFirstNonPos rest with
      | none => simp [hr] at h
      | some r =>
        simp [hr] at h
        subst h
        have hp : 0 < e.size := by omega
        simp [List.filter_cons, hp, ih r hr]

theorem cleanup_eq_filter_aux :
    ∀ (k : Nat) (l : List Address), l.length ≤ k →
      cleanup l = l.filter (fun a => decide (0 < a.size)) := by
  intro k
  induction k with
  | zero =>
    intro l hl
    have : l = [] := List.length_eq_zero.mp (by omega)
    subst this
    rw [cleanup]
    split
    · rfl
    · rename_i l' h
      simp [eraseFirstNonPos] at h
  | succ k ih =>
    intro l hl
    rw [cleanup]
    split
    · rename_i h
      exact (eraseFirstNonPos_none l h).symm
    · rename_i l' h
      have hlen := eraseFirstNonPos_length l l' h
      rw [ih l' (by omega)]
      exact eraseFirstNonPos_some l l' h

theorem cleanup_eq_filter (l : List Address) :
    cleanup l = l.filter (fun a => decide (0 < a.size)) :=
  cleanup_eq_filter_aux l.length l (Nat.le_refl _)

theorem tryFreeMem_blocks (mem : Memory) (pos size : Int) (h : freeAccepted mem pos size) :
    (tryFreeMem mem pos size).blocks =
      (freeScan pos (pos + size) mem.blocks).filter (fun a => decide (0 < a.size)) := by
  unfold freeAccepted at h
  unfold tryFreeMem
  simp only [h, and_self, if_true]
  exact cleanup_eq_filter _

theorem tryFreeMem_capacity (mem : Memory) (pos size : Int) :
    (tryFreeMem mem pos size).capacity = mem.capacity := by
  unfold tryFreeMem
  simp only []
  split <;> rfl

/-! ## The allocation scan as one recursion -/

theorem allocScan_allocFrom (cap n : Int) :
    ∀ (l : List Address) (prev : Address),
      (if (allocScan n prev l).2.1 = false ∧
          cap - ((allocScan n prev l).2.2.pos + (allocScan n prev l).2.2.size) ≥ n then
        (allocScan n prev l).1 ++
          [⟨(allocScan n prev l).2.2.pos + (allocScan n prev l).2.2.size, n⟩]
      else (allocScan n prev l).1) = allocFrom cap n (prev.pos + prev.size) l := by
  intro l
  induction l with
  | nil =>
    intro prev
    simp [allocScan, allocFrom]
  | cons e rest ih =>
    intro prev
    by_cases hg : e.pos - (prev.pos + prev.size) ≥ n
    · simp [allocScan, allocFrom, hg]
    · have := ih e
      simp only [allocScan, allocFrom, hg, if_false]
      rw [← this]
      split <;> simp

theorem tryAllocMem_eq (mem : Memory) (n : Int) :
    tryAllocMem mem n =
      if n > 0 ∧ n ≤ mem.capacity then
        { mem with blocks := allocFrom mem.capacity n 0 mem.blocks }
      else mem := by
  unfold tryAllocMem
  split
  · have := allocScan_allocFrom mem.capacity n mem.blocks ⟨0, 0⟩
    simp only [Int.add_zero] at this
    rw [← this]
    simp only []
    split <;> rfl
  · rfl

theorem tryAllocMem_capacity (mem : Memory) (n : Int) :
    (tryAllocMem mem n).capacity = mem.capacity := by
  rw [tryAllocMem_eq]
  split <;> rfl

/-! ## Ordered layouts -/

theorem Packed.mono {cap pe pe' : Int} {l : List Address}
    (h : Packed cap pe l) (hle : pe' ≤ pe) : Packed cap pe' l := by
  cases l with
  | nil => trivial
  | cons e rest =>
    obtain ⟨h1, h2, h3, h4⟩ := h
    exact ⟨by omega, h2, h3, h4⟩

theorem Packed.mem {cap : Int} :
    ∀ {l : List Address} {pe : Int}, Packed cap pe l →
      ∀ b ∈ l, pe ≤ b.pos ∧ b.pos + b.size ≤ cap ∧ 0 < b.size := by
  intro l
  induction l with
  | nil => intro pe _ b hb; cases hb
  | cons e rest ih =>
    intro pe h b hb
    obtain ⟨h1, h2, h3, h4⟩ := h
    rcases List.mem_cons.mp hb with rfl | hb
    · exact ⟨h1, h3, h2⟩
    · have := ih h4 b hb
      exact ⟨by omega, this.2.1, this.2.2⟩

theorem packed_of_pairwise (cap : Int) :
    ∀ (l : List Address) (pe : Int),
      (∀ a ∈ l, pe ≤ a.pos ∧ a.endPos ≤ cap ∧ 0 < a.size) →
      l.Pairwise (fun a b => a.endPos ≤ b.pos ∨ b.endPos ≤ a.pos) →
      l.Pairwise (fun a b => a.pos ≤ b.pos) →
      Packed cap pe l := by
  intro l
  induction l with
  | nil => intro pe _ _ _; trivial
  | cons e rest ih =>
    intro pe hb hd hs
    have he := hb e (List.mem_cons_self _ _)
    rw [List.pairwise_cons] at hd hs
    unfold Address.endPos at he
    refine ⟨he.1, he.2.2, he.2.1, ih _ ?_ hd.2 hs.2⟩
    intro a ha
    have h1 := hb a (List.mem_cons_of_mem _ ha)
    have h2 := hd.1 a ha
    have h3 := hs.1 a ha
    unfold Address.endPos at h1 h2 ⊢
    refine ⟨by omega, h1.2.1, h1.2.2⟩

theorem packed_of_inv (mem : Memory) (h1 : I1 mem) (h2 : I2 mem) (h3 : I3 mem) :
    Packed mem.capacity 0 mem.blocks :=
  packed_of_pairwise mem.capacity mem.blocks 0 h3 h1 h2

theorem inv_of_packed (cap : Int) :
    ∀ (l : List Address) (pe : Int), 0 ≤ pe → Packed cap pe l →
      I1 ⟨l, cap⟩ ∧ I2 ⟨l, cap⟩ ∧ I3 ⟨l, cap⟩ := by
  intro l
  induction l with
  | nil =>
    intro pe _ _
    refine ⟨List.Pairwise.nil, List.Pairwise.nil, ?_⟩
    intro a ha
    cases ha
  | cons e rest ih =>
    intro pe hpe h
    obtain ⟨h1, h2, h3, h4⟩ := h
    obtain ⟨i1, i2, i3⟩ := ih (e.pos + e.size) (by omega) h4
    have hm := Packed.mem h4
    refine ⟨?_, ?_, ?_⟩
    · refine List.Pairwise.cons ?_ i1
      intro a ha
      left
      exact (hm a ha).1
    · refine List.Pairwise.cons ?_ i2
      intro a ha
      have := (hm a ha).1
      omega
    · intro a ha
      rcases List.mem_cons.mp ha with rfl | ha
      · exact ⟨by omega, h3, h2⟩
      · have := hm a ha
        exact ⟨by omega, this.2.1, this.2.2⟩

/-! ## First-fit scan on an ordered layout -/

theorem allocFrom_spec (cap n : Int) (hn : 0 < n) :
    ∀ (l : List Address) (pe : Int), Packed cap pe l →
      (allocFrom cap n pe l = l ∧ ∀ g ∈ gapLengths cap pe l, g < n) ∨
      (∃ l1 l2 p, l = l1 ++ l2 ∧ allocFrom cap n pe l = l1 ++ ⟨p, n⟩ :: l2 ∧
        Packed cap pe (l1 ++ ⟨p, n⟩ :: l2) ∧ pe ≤ p ∧ p + n ≤ cap ∧
        (∀ b ∈ l, ¬ intersects b p (p + n)) ∧
        (∀ q, pe ≤ q → q + n ≤ cap → (∀ b ∈ l, ¬ intersects b q (q + n)) → p ≤ q) ∧
        (∃ g ∈ gapLengths cap pe l, n ≤ g)) := by
  intro l
  induction l with
  | nil =>
    intro pe _
    by_cases hg : cap - pe ≥ n
    · right
      refine ⟨[], [], pe, rfl, by simp [allocFrom, hg], ?_, le_refl _, by omega, ?_, ?_, ?_⟩
      · exact ⟨le_refl _, hn, by show pe + n ≤ cap; omega, trivial⟩
      · intro b hb; cases hb
      · intro q hq _ _; exact hq
      · exact ⟨cap - pe, by simp [gapLengths], hg⟩
    · left
      refine ⟨by simp [allocFrom, hg], ?_⟩
      intro g hg'
      simp [gapLengths] at hg'
      omega
  | cons e rest ih =>
    intro pe h
    obtain ⟨h1, h2, h3, h4⟩ := h
    have hm := Packed.mem h4
    by_cases hg : e.pos - pe ≥ n
    · right
      refine ⟨[], e :: rest, pe, rfl, by simp [allocFrom, hg], ?_, le_refl _, by omega, ?_, ?_, ?_⟩
      · exact ⟨le_refl _, hn, by show pe + n ≤ cap; omega,
          by show pe + n ≤ e.pos; omega, h2, h3, h4⟩
      · intro b hb
        unfold intersects
        rcases List.mem_cons.mp hb with rfl | hb
        · omega
        · have := hm b hb
          omega
      · intro q hq _ _; exact hq
      · exact ⟨e.pos - pe, by simp [gapLengths], hg⟩
    · have hstep : allocFrom cap n pe (e :: rest) = e :: allocFrom cap n (e.pos + e.size) rest := by
        simp [allocFrom, hg]
      rcases ih (e.pos + e.size) h4 with ⟨heq, hgaps⟩ | ⟨l1, l2, p, hl, heq, hp, hle, hcap, hni, hmin, hgap⟩
      · left
        refine ⟨by rw [hstep, heq], ?_⟩
        intro g hg'
        simp only [gapLengths, List.mem_cons] at hg'
        rcases hg' with rfl | hg'
        · omega
        · exact hgaps g hg'
      · right
        refine ⟨e :: l1, l2, p, by simp [hl], by rw [hstep, heq]; rfl, ?_, by omega, hcap, ?_, ?_, ?_⟩
        · exact ⟨h1, h2, h3, hp⟩
        · intro b hb
          rcases List.mem_cons.mp hb with rfl | hb
          · unfold intersects; omega
          · exact hni b hb
        · intro q hq hqc hq'
          have hqe := hq' e (List.mem_cons_self _ _)
          unfold intersects at hqe
          apply hmin q (by omega) hqc
          intro b hb
          exact hq' b (List.mem_cons_of_mem _ hb)
        · obtain ⟨g, hg1, hg2⟩ := hgap
          exact ⟨g, by simp only [gapLengths, List.mem_cons]; right; exact hg1, hg2⟩

theorem gapLengths_le (cap : Int) :
    ∀ (l : List Address) (pe : Int), 0 ≤ pe → Packed cap pe l →
      ∀ g ∈ gapLengths cap pe l, g ≤ cap := by
  intro l
  induction l with
  | nil =>
    intro pe hpe _ g hg
    simp [gapLengths] at hg
    omega
  | cons e rest ih =>
    intro pe hpe h g hg
    obtain ⟨h1, h2, h3, h4⟩ := h
    simp only [gapLengths, List.mem_cons] at hg
    rcases hg with rfl | hg
    · omega
    · exact ih (e.pos + e.size) (by omega) h4 g hg

theorem tryAllocMem_blocks (mem : Memory) (n : Int) :
    (tryAllocMem mem n).blocks =
      if n > 0 ∧ n ≤ mem.capacity then allocFrom mem.capacity n 0 mem.blocks
      else mem.blocks := by
  rw [tryAllocMem_eq]
  split <;> rfl

theorem not_insert_eq (l1 l2 : List Address) (a : Address) : l1 ++ l2 ≠ l1 ++ a :: l2 := by
  intro h
  have := congrArg List.length h
  simp at this

/-- What `tryAllocMem` does on a state satisfying I1-I3: either nothing (and
then the size is out of range or every gap is too short), or one first-fit
insertion. -/
theorem tryAllocMem_cases (mem : Memory) (n : Int)
    (h1 : I1 mem) (h2 : I2 mem) (h3 : I3 mem) :
    ((tryAllocMem mem n).blocks = mem.blocks ∧
      (n ≤ 0 ∨ ∀ g ∈ gapLengths mem.capacity 0 mem.blocks, g < n)) ∨
    (0 < n ∧ ∃ l1 l2 p, mem.blocks = l1 ++ l2 ∧
      (tryAllocMem mem n).blocks = l1 ++ ⟨p, n⟩ :: l2 ∧
      Packed mem.capacity 0 (l1 ++ ⟨p, n⟩ :: l2) ∧ fitsAt mem n p ∧
      (∀ q, fitsAt mem n q → p ≤ q) ∧
      (∃ g ∈ gapLengths mem.capacity 0 mem.blocks, n ≤ g)) := by
  have hp := packed_of_inv mem h1 h2 h3
  rw [tryAllocMem_blocks]
  by_cases hn : 0 < n
  · by_cases hc : n ≤ mem.capacity
    · have hguard : n > 0 ∧ n ≤ mem.capacity := ⟨hn, hc⟩
      rw [if_pos hguard]
      rcases allocFrom_spec mem.capacity n hn mem.blocks 0 hp with
        ⟨heq, hg⟩ | ⟨l1, l2, p, hl, heq, hpk, hle, hcap, hni, hmin, hgap⟩
      · left; exact ⟨heq, Or.inr hg⟩
      · right
        refine ⟨hn, l1, l2, p, hl, heq, hpk, ⟨hle, hcap, hni⟩, ?_, hgap⟩
        intro q hq
        exact hmin q hq.1 hq.2.1 hq.2.2
    · left
      have hguard : ¬ (n > 0 ∧ n ≤ mem.capacity) := fun h => hc h.2
      rw [if_neg hguard]
      refine ⟨rfl, Or.inr ?_⟩
      intro g hg
      have := gapLengths_le mem.capacity mem.blocks 0 (le_refl _) hp g hg
      omega
  · left
    have hguard : ¬ (n > 0 ∧ n ≤ mem.capacity) := fun h => hn h.1
    rw [if_neg hguard]
    exact ⟨rfl, Or.inl (by omega)⟩

/-! ## The rule chain of `tryFreeMem` on one block -/

theorem tryFreeMem_eq (mem : Memory) (pos size : Int) (h : freeAccepted mem pos size) :
    tryFreeMem mem pos size =
      ⟨(freeScan pos (pos + size) mem.blocks).filter (fun a => decide (0 < a.size)),
        mem.capacity⟩ := by
  unfold freeAccepted at h
  unfold tryFreeMem
  simp only []
  rw [if_pos h, cleanup_eq_filter]

theorem freeBlock_no_overlap (pos end_ : Int) (b : Address)
    (hb : 0 < b.size) (hlt : pos < end_) (hni : ¬ intersects b pos end_) :
    freeBlock pos end_ b = [b] := by
  unfold intersects at hni
  unfold freeBlock
  simp only []
  by_cases c1 : pos ≤ b.pos ∧ end_ ≥ b.pos + b.size
  · omega
  · rw [if_neg c1]
    by_cases c2 : pos < b.pos ∧ end_ ≥ b.pos
    · rw [if_pos c2]
      have he : end_ = b.pos := by omega
      subst he
      cases b
      simp
    · rw [if_neg c2]
      by_cases c3 : pos < b.pos + b.size ∧ end_ ≥ b.pos + b.size
      · omega
      · rw [if_neg c3]
        by_cases c4 : pos ≥ b.pos ∧ end_ ≤ b.pos + b.size
        · omega
        · rw [if_neg c4]

theorem freeBlock_props (pos end_ : Int) (b : Address) (hb : 0 < b.size) (hle : pos ≤ end_) :
    ∀ x ∈ freeBlock pos end_ b,
      b.pos ≤ x.pos ∧ x.pos + x.size ≤ b.pos + b.size ∧ 0 ≤ x.size ∧
      (0 < x.size → ¬ intersects x pos end_) := by
  intro x hx
  unfold freeBlock at hx
  simp only [] at hx
  unfold intersects
  by_cases c1 : pos ≤ b.pos ∧ end_ ≥ b.pos + b.size
  · rw [if_pos c1] at hx
    simp only [List.mem_singleton] at hx
    subst hx
    simp only []
    omega
  · rw [if_neg c1] at hx
    by_cases c2 : pos < b.pos ∧ end_ ≥ b.pos
    · rw [if_pos c2] at hx
      simp only [List.mem_singleton] at hx
      subst hx
      simp only []
      omega
    · rw [if_neg c2] at hx
      by_cases c3 : pos < b.pos + b.size ∧ end_ ≥ b.pos + b.size
      · rw [if_pos c3] at hx
        simp only [List.mem_singleton] at hx
        subst hx
        simp only []
        omega
      · rw [if_neg c3] at hx
        by_cases c4 : pos ≥ b.pos ∧ end_ ≤ b.pos + b.size
        · rw [if_pos c4] at hx
          simp only [List.mem_cons, List.mem_singleton, List.not_mem_nil, or_false] at hx
          rcases hx with hx | hx
          · subst hx
            simp only []
            omega
          · subst hx
            simp only []
            omega
        · rw [if_neg c4] at hx
          simp only [List.mem_singleton] at hx
          subst hx
          omega

theorem freeBlock_pairwise (pos end_ : Int) (b : Address) (hle : pos ≤ end_) :
    (freeBlock pos end_ b).Pairwise (fun a b => a.endPos ≤ b.pos ∨ b.endPos ≤ a.pos) := by
  unfold freeBlock
  simp only []
  split_ifs
  · exact List.pairwise_singleton _ _
  · exact List.pairwise_singleton _ _
  · exact List.pairwise_singleton _ _
  · refine List.Pairwise.cons ?_ (List.pairwise_singleton _ _)
    intro a ha
    simp only [List.mem_singleton] at ha
    subst ha
    right
    unfold Address.endPos
    simp only []
    omega
  · exact List.pairwise_singleton _ _

/-! ## The loop of `tryFreeMem` -/

theorem freeScan_append (pos end_ : Int) (l1 l2 : List Address) :
    freeScan pos end_ (l1 ++ l2) = freeScan pos end_ l1 ++ freeScan pos end_ l2 := by
  induction l1 with
  | nil => rfl
  | cons b rest ih => simp [freeScan, ih]

theorem mem_freeScan (pos end_ : Int) (x : Address) :
    ∀ l : List Address, x ∈ freeScan pos end_ l → ∃ b ∈ l, x ∈ freeBlock pos end_ b := by
  intro l
  induction l with
  | nil => intro h; cases h
  | cons b rest ih =>
    intro h
    unfold freeScan at h
    rcases List.mem_append.mp h with h | h
    · exact ⟨b, List.mem_cons_self _ _, h⟩
    · obtain ⟨c, hc, hx⟩ := ih h
      exact ⟨c, List.mem_cons_of_mem _ hc, hx⟩

theorem freeScan_no_overlap (pos end_ : Int) (hlt : pos < end_) :
    ∀ l : List Address, (∀ b ∈ l, 0 < b.size ∧ ¬ intersects b pos end_) →
      freeScan pos end_ l = l := by
  intro l
  induction l with
  | nil => intro _; rfl
  | cons b rest ih =>
    intro h
    have hb := h b (List.mem_cons_self _ _)
    unfold freeScan
    rw [freeBlock_no_overlap pos end_ b hb.1 hlt hb.2,
      ih (fun c hc => h c (List.mem_cons_of_mem _ hc))]
    rfl

theorem freeScan_pairwise (pos end_ : Int) (hle : pos ≤ end_) :
    ∀ l : List Address, (∀ b ∈ l, 0 < b.size) →
      l.Pairwise (fun a b => a.endPos ≤ b.pos ∨ b.endPos ≤ a.pos) →
      (freeScan pos end_ l).Pairwise (fun a b => a.endPos ≤ b.pos ∨ b.endPos ≤ a.pos) := by
  intro l
  induction l with
  | nil => intro _ _; exact List.Pairwise.nil
  | cons b rest ih =>
    intro hpos hd
    rw [List.pairwise_cons] at hd
    unfold freeScan
    rw [List.pairwise_append]
    refine ⟨freeBlock_pairwise pos end_ b hle,
      ih (fun c hc => hpos c (List.mem_cons_of_mem _ hc)) hd.2, ?_⟩
    intro x hx y hy
    obtain ⟨c, hc, hyc⟩ := mem_freeScan pos end_ y rest hy
    have px := freeBlock_props pos end_ b (hpos b (List.mem_cons_self _ _)) hle x hx
    have py := freeBlock_props pos end_ c (hpos c (List.mem_cons_of_mem _ hc)) hle y hyc
    have hbc := hd.1 c hc
    unfold Address.endPos at hbc ⊢
    omega

theorem filter_pos_eq_self (l : List Address) (h : ∀ b ∈ l, 0 < b.size) :
    l.filter (fun a => decide (0 < a.size)) = l := by
  rw [List.filter_eq_self]
  intro a ha
  simpa using h a ha

/-- Freeing a non-empty range that intersects no region changes nothing. -/
theorem tryFreeMem_no_overlap (mem : Memory) (pos size : Int)
    (hpos : ∀ b ∈ mem.blocks, 0 < b.size) (hsz : 0 < size)
    (hni : ∀ b ∈ mem.blocks, ¬ intersects b pos (pos + size)) :
    tryFreeMem mem pos size = mem := by
  by_cases hacc : freeAccepted mem pos size
  · rw [tryFreeMem_eq mem pos size hacc,
      freeScan_no_overlap pos (pos + size) (by omega) mem.blocks
        (fun b hb => ⟨hpos b hb, hni b hb⟩),
      filter_pos_eq_self mem.blocks hpos]
  · unfold freeAccepted at hacc
    unfold tryFreeMem
    simp only []
    rw [if_neg hacc]

/-! ## Claims on `tryAllocMem` -/

/-- C2: on a state satisfying I1-I3, if `tryAllocMem` with size `n` changes the
region list, then the new list is the old list with exactly one region of
length `n` inserted (old regions unchanged, in the same relative order), the
inserted region intersects no old region, and the new state satisfies I1-I3. -/
theorem alloc_inserts_one_disjoint_region (mem : Memory) (n : Int)
    (h1 : I1 mem) (h2 : I2 mem) (h3 : I3 mem)
    (hch : (tryAllocMem mem n).blocks ≠ mem.blocks) :
    ∃ l1 l2 a, mem.blocks = l1 ++ l2 ∧ (tryAllocMem mem n).blocks = l1 ++ a :: l2 ∧
      a.size = n ∧ (∀ b ∈ mem.blocks, ¬ intersects b a.pos (a.pos + a.size)) ∧
      I1 (tryAllocMem mem n) ∧ I2 (tryAllocMem mem n) ∧ I3 (tryAllocMem mem n) := by
  rcases tryAllocMem_cases mem n h1 h2 h3 with ⟨heq, _⟩ | ⟨hn, l1, l2, p, hl, heq, hpk, hfit, _, _⟩
  · exact absurd heq hch
  · refine ⟨l1, l2, ⟨p, n⟩, hl, heq, rfl, hfit.2.2, ?_⟩
    have hinv := inv_of_packed mem.capacity _ 0 (le_refl _) hpk
    have hm : tryAllocMem mem n = ⟨l1 ++ ⟨p, n⟩ :: l2, mem.capacity⟩ := by
      have hc := tryAllocMem_capacity mem n
      cases hm : tryAllocMem mem n with
      | mk bl cp =>
        rw [hm] at heq hc
        simp only at heq hc
        rw [heq, hc]
    rw [hm]
    exact hinv

/-- Witness for C2: `Allocate(4)` on the seeded state. -/
theorem alloc_inserts_one_disjoint_region_witness :
    ∃ l1 l2 a, initMem.blocks = l1 ++ l2 ∧ (tryAllocMem initMem 4).blocks = l1 ++ a :: l2 ∧
      a.size = 4 ∧ (∀ b ∈ initMem.blocks, ¬ intersects b a.pos (a.pos + a.size)) ∧
      I1 (tryAllocMem initMem 4) ∧ I2 (tryAllocMem initMem 4) ∧ I3 (tryAllocMem initMem 4) :=
  alloc_inserts_one_disjoint_region initMem 4 (by decide) (by decide) (by decide) (by decide)

/-- C3 (first-fit): on a state satisfying I1-I3 and for `n > 0`, if `tryAllocMem`
inserts a region, that region is `(p, n)` where `p` is the least integer with
`0 <= p`, `p + n <= capacity` and `[p, p + n)` intersecting no existing region;
the inserted region is the same in every reading of the new list as the old
list plus one region. -/
theorem alloc_first_fit (mem : Memory) (n : Int)
    (h1 : I1 mem) (h2 : I2 mem) (h3 : I3 mem) (hn : 0 < n)
    (hch : (tryAllocMem mem n).blocks ≠ mem.blocks) :
    ∃ p, (∃ l1 l2, mem.blocks = l1 ++ l2 ∧ (tryAllocMem mem n).blocks = l1 ++ ⟨p, n⟩ :: l2) ∧
      (∀ l1 l2 a, mem.blocks = l1 ++ l2 → (tryAllocMem mem n).blocks = l1 ++ a :: l2 →
        a = ⟨p, n⟩) ∧
      fitsAt mem n p ∧ ∀ q, fitsAt mem n q → p ≤ q := by
  rcases tryAllocMem_cases mem n h1 h2 h3 with ⟨heq, _⟩ | ⟨_, l1, l2, p, hl, heq, _, hfit, hmin, _⟩
  · exact absurd heq hch
  · refine ⟨p, ⟨l1, l2, hl, heq⟩, ?_, hfit, hmin⟩
    intro k1 k2 a hk hnew
    have hnot : (⟨p, n⟩ : Address) ∉ mem.blocks := by
      intro hmem
      have := hfit.2.2 _ hmem
      unfold intersects at this
      simp only at this
      omega
    have hin : (⟨p, n⟩ : Address) ∈ (tryAllocMem mem n).blocks := by
      rw [heq]; simp
    rw [hnew] at hin
    rcases List.mem_append.mp hin with hin | hin
    · exact absurd (by rw [hk]; exact List.mem_append_left _ hin) hnot
    · rcases List.mem_cons.mp hin with hin | hin
      · exact hin.symm
      · exact absurd (by rw [hk]; exact List.mem_append_right _ hin) hnot

/-- Witness for C3: capacity 25, regions `[(1,3),(8,5),(22,1)]`, `Allocate(4)`
yields `[(1,3),(4,4),(8,5),(22,1)]`. -/
theorem alloc_first_fit_witness :
    (tryAllocMem initMem 4).blocks = [⟨1, 3⟩, ⟨4, 4⟩, ⟨8, 5⟩, ⟨22, 1⟩] ∧
    ∃ p, (∃ l1 l2, initMem.blocks = l1 ++ l2 ∧
        (tryAllocMem initMem 4).blocks = l1 ++ ⟨p, 4⟩ :: l2) ∧
      (∀ l1 l2 a, initMem.blocks = l1 ++ l2 → (tryAllocMem initMem 4).blocks = l1 ++ a :: l2 →
        a = ⟨p, 4⟩) ∧
      fitsAt initMem 4 p ∧ ∀ q, fitsAt initMem 4 q → p ≤ q :=
  ⟨by decide,
    alloc_first_fit initMem 4 (by decide) (by decide) (by decide) (by decide) (by decide)⟩

/-- C4: on a state satisfying I1-I3, `tryAllocMem` with size `n` inserts a
region if and only if `n > 0` and some gap (before the first region, between
consecutive regions, after the last one up to capacity) has length `>= n`; when
`n <= 0`, `n > capacity` or every gap is shorter than `n` the region list is
unchanged. -/
theorem alloc_inserts_iff_gap (mem : Memory) (n : Int)
    (h1 : I1 mem) (h2 : I2 mem) (h3 : I3 mem) :
    ((∃ l1 l2 a, mem.blocks = l1 ++ l2 ∧ (tryAllocMem mem n).blocks = l1 ++ a :: l2 ∧
        a.size = n) ↔
      (0 < n ∧ ∃ g ∈ gapLengths mem.capacity 0 mem.blocks, n ≤ g)) ∧
    ((n ≤ 0 ∨ n > mem.capacity ∨ ∀ g ∈ gapLengths mem.capacity 0 mem.blocks, g < n) →
      (tryAllocMem mem n).blocks = mem.blocks) := by
  have hgle := gapLengths_le mem.capacity mem.blocks 0 (le_refl _) (packed_of_inv mem h1 h2 h3)
  rcases tryAllocMem_cases mem n h1 h2 h3 with ⟨heq, hno⟩ | ⟨hn, l1, l2, p, hl, heq, _, _, _, hgap⟩
  · refine ⟨⟨?_, ?_⟩, fun _ => heq⟩
    · rintro ⟨k1, k2, a, hk, hnew, _⟩
      rw [heq, hk] at hnew
      exact absurd hnew (not_insert_eq k1 k2 a)
    · rintro ⟨hn, g, hg, hle⟩
      rcases hno with hno | hno
      · omega
      · have := hno g hg
        omega
  · refine ⟨⟨fun _ => ⟨hn, hgap⟩, fun _ => ⟨l1, l2, ⟨p, n⟩, hl, heq, rfl⟩⟩, ?_⟩
    obtain ⟨g, hg, hle⟩ := hgap
    rintro (h | h | h)
    · omega
    · have := hgle g hg
      omega
    · have := h g hg
      omega

/-- Witness for C4: `Allocate(30)` on capacity 25 changes nothing. -/
theorem alloc_inserts_iff_gap_witness :
    (tryAllocMem initMem 30).blocks = initMem.blocks ∧
    (((∃ l1 l2 a, initMem.blocks = l1 ++ l2 ∧ (tryAllocMem initMem 30).blocks = l1 ++ a :: l2 ∧
        a.size = 30) ↔
      (0 < (30 : Int) ∧ ∃ g ∈ gapLengths initMem.capacity 0 initMem.blocks, 30 ≤ g)) ∧
    (((30 : Int) ≤ 0 ∨ 30 > initMem.capacity ∨
        ∀ g ∈ gapLengths initMem.capacity 0 initMem.blocks, g < 30) →
      (tryAllocMem initMem 30).blocks = initMem.blocks)) :=
  ⟨(alloc_inserts_iff_gap initMem 30 (by decide) (by decide) (by decide)).2
      (Or.inr (Or.inl (by decide))),
    alloc_inserts_iff_gap initMem 30 (by decide) (by decide) (by decide)⟩

/-! ## Claims on `tryFreeMem` -/

/-- C5: on a state satisfying I1-I4, after an accepted `Free(pos, size)` no
region of the list intersects `[pos, pos + size)`. -/
theorem free_clears_range (mem : Memory) (pos size : Int)
    (_h1 : I1 mem) (_h2 : I2 mem) (h3 : I3 mem) (_h4 : I4 mem)
    (hacc : freeAccepted mem pos size) :
    ∀ b ∈ (tryFreeMem mem pos size).blocks, ¬ intersects b pos (pos + size) := by
  intro b hb
  by_cases hs : 0 < size
  · rw [tryFreeMem_blocks mem pos size hacc, List.mem_filter] at hb
    obtain ⟨hscan, hbpos⟩ := hb
    obtain ⟨c, hc, hbc⟩ := mem_freeScan pos (pos + size) b mem.blocks hscan
    have := freeBlock_props pos (pos + size) c (h3 c hc).2.2 (by omega) b hbc
    exact this.2.2.2 (by simpa using hbpos)
  · unfold intersects
    omega

/-- Witness for C5: `Free(9,2)` on the seeded state. -/
theorem free_clears_range_witness :
    (I1 initMem ∧ I2 initMem ∧ I3 initMem ∧ I4 initMem ∧ freeAccepted initMem 9 2) ∧
    ∀ b ∈ (tryFreeMem initMem 9 2).blocks, ¬ intersects b 9 (9 + 2) :=
  ⟨by decide,
    free_clears_range initMem 9 2 (by decide) (by decide) (by decide) (by decide) (by decide)⟩

/-- C6: on a state satisfying I1-I4, after an accepted `Free(pos, size)` with
`size > 0` the regions are pairwise disjoint (I1), every region satisfies
`0 <= start` and `start + length <= capacity` with positive length (I3), and no
region has length `<= 0` (I4). -/
theorem free_keeps_disjoint_bounds (mem : Memory) (pos size : Int)
    (h1 : I1 mem) (_h2 : I2 mem) (h3 : I3 mem) (_h4 : I4 mem)
    (hacc : freeAccepted mem pos size) (hs : 0 < size) :
    I1 (tryFreeMem mem pos size) ∧ I3 (tryFreeMem mem pos size) ∧
      I4 (tryFreeMem mem pos size) := by
  have hprops : ∀ x ∈ (freeScan pos (pos + size) mem.blocks).filter
      (fun a => decide (0 < a.size)),
      0 ≤ x.pos ∧ x.endPos ≤ mem.capacity ∧ 0 < x.size := by
    intro x hx
    rw [List.mem_filter] at hx
    obtain ⟨hscan, hxpos⟩ := hx
    obtain ⟨c, hc, hxc⟩ := mem_freeScan pos (pos + size) x mem.blocks hscan
    have hc3 := h3 c hc
    have := freeBlock_props pos (pos + size) c hc3.2.2 (by omega) x hxc
    have hxp : 0 < x.size := by simpa using hxpos
    unfold Address.endPos at hc3 ⊢
    exact ⟨by omega, by omega, hxp⟩
  rw [tryFreeMem_eq mem pos size hacc]
  refine ⟨?_, hprops, ?_⟩
  · unfold I1
    simp only []
    exact List.Pairwise.sublist (List.filter_sublist _)
      (freeScan_pairwise pos (pos + size) (by omega) mem.blocks
        (fun b hb => (h3 b hb).2.2) h1)
  · intro x hx
    have := (hprops x hx).2.2
    omega

/-- Witness for C6: `Free(9,2)` on the seeded state. -/
theorem free_keeps_disjoint_bounds_witness :
    I1 (tryFreeMem initMem 9 2) ∧ I3 (tryFreeMem initMem 9 2) ∧ I4 (tryFreeMem initMem 9 2) :=
  free_keeps_disjoint_bounds initMem 9 2 (by decide) (by decide) (by decide) (by decide)
    (by decide) (by decide)

/-- The interior-split rule on a whole list: the block `b` is replaced by the
high fragment followed by the low fragment. -/
theorem free_interior_split (cap : Int) (l1 l2 : List Address) (b : Address) (pos size : Int)
    (hpos : ∀ c ∈ l1 ++ b :: l2, 0 < c.size)
    (hd : (l1 ++ b :: l2).Pairwise (fun a b => a.endPos ≤ b.pos ∨ b.endPos ≤ a.pos))
    (hacc : freeAccepted ⟨l1 ++ b :: l2, cap⟩ pos size) (hs : 0 < size)
    (hlo : b.pos < pos) (hhi : pos + size < b.pos + b.size) :
    (tryFreeMem ⟨l1 ++ b :: l2, cap⟩ pos size).blocks =
      l1 ++ ⟨pos + size, b.pos + b.size - (pos + size)⟩ :: ⟨b.pos, pos - b.pos⟩ :: l2 := by
  rw [List.pairwise_append, List.pairwise_cons] at hd
  obtain ⟨_, ⟨hb2, _⟩, h12⟩ := hd
  have hl1 : freeScan pos (pos + size) l1 = l1 := by
    apply freeScan_no_overlap pos (pos + size) (by omega)
    intro c hc
    have hcp := hpos c (List.mem_append_left _ hc)
    have := h12 c hc b (List.mem_cons_self _ _)
    unfold Address.endPos at this
    unfold intersects
    exact ⟨hcp, by omega⟩
  have hl2 : freeScan pos (pos + size) l2 = l2 := by
    apply freeScan_no_overlap pos (pos + size) (by omega)
    intro c hc
    have hcp := hpos c (List.mem_append_right _ (List.mem_cons_of_mem _ hc))
    have := hb2 c hc
    unfold Address.endPos at this
    unfold intersects
    exact ⟨hcp, by omega⟩
  have hb : freeBlock pos (pos + size) b =
      [⟨pos + size, b.pos + b.size - (pos + size)⟩, ⟨b.pos, pos - b.pos⟩] := by
    unfold freeBlock
    simp only []
    rw [if_neg (by omega), if_neg (by omega), if_neg (by omega), if_pos (by omega)]
  rw [tryFreeMem_blocks _ pos size hacc]
  simp only []
  rw [freeScan_append, freeScan, hl1, hl2, hb]
  apply filter_pos_eq_self
  intro c hc
  simp only [List.mem_append, List.mem_cons, List.cons_append, List.nil_append] at hc
  rcases hc with hc | hc | hc | hc
  · exact hpos c (List.mem_append_left _ hc)
  · subst hc; simp only []; omega
  · subst hc; simp only []; omega
  · exact hpos c (List.mem_append_right _ (List.mem_cons_of_mem _ hc))

/-- C7, the code at the specification's example: `Free(9,2)` on
`[(1,3),(8,5),(22,1)]` leaves `[(1,3),(11,2),(8,1),(22,1)]`, the high fragment
before the low one, which is not the sequence `[(1,3),(8,1),(11,2),(22,1)]` and
is not sorted by start. -/
theorem free_interior_split_reverses_order :
    (tryFreeMem initMem 9 2).blocks = [⟨1, 3⟩, ⟨11, 2⟩, ⟨8, 1⟩, ⟨22, 1⟩] ∧
    (tryFreeMem initMem 9 2).blocks ≠ [⟨1, 3⟩, ⟨8, 1⟩, ⟨11, 2⟩, ⟨22, 1⟩] ∧
    ¬ I2 (tryFreeMem initMem 9 2) := by
  have hm : tryFreeMem initMem 9 2 = ⟨[⟨1, 3⟩, ⟨11, 2⟩, ⟨8, 1⟩, ⟨22, 1⟩], 25⟩ := by
    rw [tryFreeMem_eq initMem 9 2 (by decide)]
    decide
  rw [hm]
  decide

/-- C8, the code on an empty range: `Free(20,-10)` and `Free(9,0)` pass the input
check on the seeded state and their ranges intersect no region, yet the region
list changes (in the first case the region `(8,5)` grows to `(8,12)`). -/
theorem free_empty_range_changes_list :
    freeAccepted initMem 20 (-10) ∧
    (∀ b ∈ initMem.blocks, ¬ intersects b 20 (20 + -10)) ∧
    (tryFreeMem initMem 20 (-10)).blocks = [⟨1, 3⟩, ⟨10, 3⟩, ⟨8, 12⟩, ⟨22, 1⟩] ∧
    freeAccepted initMem 9 0 ∧
    (∀ b ∈ initMem.blocks, ¬ intersects b 9 (9 + 0)) ∧
    (tryFreeMem initMem 9 0).blocks = [⟨1, 3⟩, ⟨9, 4⟩, ⟨8, 1⟩, ⟨22, 1⟩] := by
  refine ⟨by decide, by decide, ?_, by decide, by decide, ?_⟩
  · rw [tryFreeMem_blocks initMem 20 (-10) (by decide)]
    decide
  · rw [tryFreeMem_blocks initMem 9 0 (by decide)]
    decide

/-- C9: on a state satisfying I1-I4, when `tryAllocMem` with size `n` inserts a
region `(p, n)`, `tryFreeMem` with `pos = p` and `size = n` on the resulting
state restores exactly the pre-allocation state. -/
theorem free_undoes_alloc (mem : Memory) (n : Int)
    (h1 : I1 mem) (h2 : I2 mem) (h3 : I3 mem) (_h4 : I4 mem)
    (hch : (tryAllocMem mem n).blocks ≠ mem.blocks) :
    ∃ p, (∃ l1 l2, mem.blocks = l1 ++ l2 ∧ (tryAllocMem mem n).blocks = l1 ++ ⟨p, n⟩ :: l2) ∧
      tryFreeMem (tryAllocMem mem n) p n = mem := by
  rcases tryAllocMem_cases mem n h1 h2 h3 with ⟨heq, _⟩ | ⟨hn, l1, l2, p, hl, heq, _, hfit, _, _⟩
  · exact absurd heq hch
  · refine ⟨p, ⟨l1, l2, hl, heq⟩, ?_⟩
    have hm : tryAllocMem mem n = ⟨l1 ++ ⟨p, n⟩ :: l2, mem.capacity⟩ := by
      have hc := tryAllocMem_capacity mem n
      cases hm : tryAllocMem mem n with
      | mk bl cp =>
        rw [hm] at heq hc
        simp only at heq hc
        rw [heq, hc]
    obtain ⟨hp0, hpc, hni⟩ := hfit
    have hacc : freeAccepted ⟨l1 ++ ⟨p, n⟩ :: l2, mem.capacity⟩ p n := by
      unfold freeAccepted
      simp only []
      omega
    have hold : ∀ l, (∀ c ∈ l, c ∈ mem.blocks) → freeScan p (p + n) l = l := by
      intro l hsub
      apply freeScan_no_overlap p (p + n) (by omega)
      intro c hc
      exact ⟨(h3 c (hsub c hc)).2.2, hni c (hsub c hc)⟩
    have hself : freeBlock p (p + n) ⟨p, n⟩ = [⟨p, 0⟩] := by
      unfold freeBlock
      simp
    rw [hm, tryFreeMem_eq _ p n hacc]
    simp only []
    rw [freeScan_append, freeScan, hself,
      hold l1 (fun c hc => by rw [hl]; exact List.mem_append_left _ hc),
      hold l2 (fun c hc => by rw [hl]; exact List.mem_append_right _ hc)]
    have hf : (l1 ++ ([(⟨p, 0⟩ : Address)] ++ l2)).filter (fun a => decide (0 < a.size)) = l1 ++ l2 := by
      rw [List.filter_append, List.filter_append,
        filter_pos_eq_self l1 (fun c hc => (h3 c (by rw [hl]; exact List.mem_append_left _ hc)).2.2),
        filter_pos_eq_self l2 (fun c hc => (h3 c (by rw [hl]; exact List.mem_append_right _ hc)).2.2)]
      simp
    rw [hf, ← hl]

/-- Witness for C9: `Allocate(4)` then `Free(4,4)` on the seeded state. -/
theorem free_undoes_alloc_witness :
    ∃ p, (∃ l1 l2, initMem.blocks = l1 ++ l2 ∧
        (tryAllocMem initMem 4).blocks = l1 ++ ⟨p, 4⟩ :: l2) ∧
      tryFreeMem (tryAllocMem initMem 4) p 4 = initMem :=
  free_undoes_alloc initMem 4 (by decide) (by decide) (by decide) (by decide) (by decide)

/-! ## The defragment loop -/

theorem defragLoop_sizes :
    ∀ (l : List Address) (s : Int),
      (defragLoop s l).map Address.size = l.map Address.size := by
  intro l
  induction l with
  | nil => intro s; rfl
  | cons e rest ih => intro s; simp [defragLoop, ih]

theorem defragLoop_pos :
    ∀ (l : List Address) (s : Int) (i : Nat),
      ((defragLoop s l)[i]?).map Address.pos =
        (l[i]?).map (fun _ => s + ((l.take i).map Address.size).sum) := by
  intro l
  induction l with
  | nil => intro s i; simp [defragLoop]
  | cons e rest ih =>
    intro s i
    cases i with
    | zero => simp [defragLoop]
    | succ i =>
      simp only [defragLoop, List.getElem?_cons_succ, List.take_succ_cons, List.map_cons,
        List.sum_cons]
      rw [ih (s + e.size) i]
      cases rest[i]? with
      | none => rfl
      | some _ => simp only [Option.map_some']; congr 1; omega

/-- C10: the defragment loop keeps the number of regions, their order and every
length, and sets each region's start to the sum of the lengths of the regions
before it in the list (the first to 0), so the sum of lengths is unchanged;
`[(1,3),(8,5),(22,1)]` becomes `[(0,3),(3,5),(8,1)]`. -/
theorem defrag_packs_in_order :
    (∀ mem : Memory,
      (defrag mem).blocks.length = mem.blocks.length ∧
      (defrag mem).blocks.map Address.size = mem.blocks.map Address.size ∧
      (∀ i : Nat, ((defrag mem).blocks[i]?).map Address.pos =
        (mem.blocks[i]?).map (fun _ => ((mem.blocks.take i).map Address.size).sum)) ∧
      ((defrag mem).blocks.map Address.size).sum = (mem.blocks.map Address.size).sum ∧
      (defrag mem).capacity = mem.capacity) ∧
    (defrag initMem).blocks = [⟨0, 3⟩, ⟨3, 5⟩, ⟨8, 1⟩] := by
  refine ⟨?_, by decide⟩
  intro mem
  have hs := defragLoop_sizes mem.blocks 0
  refine ⟨?_, hs, ?_, ?_, rfl⟩
  · have := congrArg List.length hs
    simpa using this
  · intro i
    have := defragLoop_pos mem.blocks 0 i
    simpa using this
  · show ((defragLoop 0 mem.blocks).map Address.size).sum = _
    rw [hs]

/-! ## Invariant preservation over call sequences -/

/-- C1, the code on the seeded state (which satisfies I1-I4): `Free(9,2)` leaves
`[(1,3),(11,2),(8,1),(22,1)]`, which is not sorted (I2 fails); a following
`Allocate(5)` then inserts `(4,5)`, which overlaps `(8,1)` (I1 fails); and
`Free(20,-10)` alone leaves `(10,3)` and `(8,12)` overlapping (I1 fails). -/
theorem invariants_broken_by_free :
    (I1 initMem ∧ I2 initMem ∧ I3 initMem ∧ I4 initMem) ∧
    (tryFreeMem initMem 9 2).blocks = [⟨1, 3⟩, ⟨11, 2⟩, ⟨8, 1⟩, ⟨22, 1⟩] ∧
    ¬ I2 (tryFreeMem initMem 9 2) ∧
    (tryAllocMem (tryFreeMem initMem 9 2) 5).blocks =
      [⟨1, 3⟩, ⟨4, 5⟩, ⟨11, 2⟩, ⟨8, 1⟩, ⟨22, 1⟩] ∧
    ¬ I1 (tryAllocMem (tryFreeMem initMem 9 2) 5) ∧
    (tryFreeMem initMem 20 (-10)).blocks = [⟨1, 3⟩, ⟨10, 3⟩, ⟨8, 12⟩, ⟨22, 1⟩] ∧
    ¬ I1 (tryFreeMem initMem 20 (-10)) := by
  have hm : tryFreeMem initMem 9 2 = ⟨[⟨1, 3⟩, ⟨11, 2⟩, ⟨8, 1⟩, ⟨22, 1⟩], 25⟩ := by
    rw [tryFreeMem_eq initMem 9 2 (by decide)]
    decide
  have hn : tryFreeMem initMem 20 (-10) = ⟨[⟨1, 3⟩, ⟨10, 3⟩, ⟨8, 12⟩, ⟨22, 1⟩], 25⟩ := by
    rw [tryFreeMem_eq initMem 20 (-10) (by decide)]
    decide
  rw [hm, hn]
  decide

/-! ## Further claims on the defragment loop -/

theorem defragLoop_packed (cap : Int) :
    ∀ (l : List Address) (s pe : Int), Packed cap pe l → s ≤ pe →
      Packed cap s (defragLoop s l) := by
  intro l
  induction l with
  | nil => intro s pe _ _; trivial
  | cons e rest ih =>
    intro s pe h hle
    obtain ⟨h1, h2, h3, h4⟩ := h
    exact ⟨le_refl _, h2, by show s + e.size ≤ cap; omega,
      ih (s + e.size) (e.pos + e.size) h4 (by omega)⟩

theorem defragLoop_getLast :
    ∀ (l : List Address) (s : Int) (b : Address), (defragLoop s l).getLast? = some b →
      b.pos + b.size = s + totalSize l := by
  intro l
  induction l with
  | nil => intro s b h; simp [defragLoop] at h
  | cons e rest ih =>
    intro s b h
    cases rest with
    | nil =>
      simp [defragLoop] at h
      subst h
      simp [totalSize]
    | cons e2 rest2 =>
      have hstep : (defragLoop s (e :: e2 :: rest2)).getLast? =
          (defragLoop (s + e.size) (e2 :: rest2)).getLast? := by
        simp [defragLoop, List.getLast?_cons_cons]
      rw [hstep] at h
      have := ih (s + e.size) b h
      simp only [totalSize, List.map_cons, List.sum_cons] at this ⊢
      omega

theorem defragLoop_gaps (cap : Int) :
    ∀ (l : List Address) (s : Int),
      gapLengths cap s (defragLoop s l) =
        List.replicate l.length 0 ++ [cap - (s + totalSize l)] := by
  intro l
  induction l with
  | nil => intro s; simp [defragLoop, gapLengths, totalSize]
  | cons e rest ih =>
    intro s
    simp only [defragLoop, gapLengths, List.length_cons, List.replicate_succ, List.cons_append]
    rw [ih (s + e.size)]
    simp only [totalSize, List.map_cons, List.sum_cons]
    congr 2
    · omega
    · congr 1; congr 1; omega

theorem defragLoop_idem :
    ∀ (l : List Address) (s t : Int), defragLoop s (defragLoop t l) = defragLoop s l := by
  intro l
  induction l with
  | nil => intro s t; rfl
  | cons e rest ih =>
    intro s t
    simp only [defragLoop]
    rw [ih]

/-- C11: from a state satisfying I1-I3 the defragment loop leads to a state that
satisfies I1-I3 again; the end of the last region equals the sum of all lengths
and does not exceed the capacity, and every gap has length 0 except the tail gap
`[sum(lengths), capacity)`. -/
theorem defrag_preserves_invariants (mem : Memory)
    (h1 : I1 mem) (h2 : I2 mem) (h3 : I3 mem) :
    (I1 (defrag mem) ∧ I2 (defrag mem) ∧ I3 (defrag mem)) ∧
    (∀ b, (defrag mem).blocks.getLast? = some b →
      b.endPos = totalSize mem.blocks ∧ b.endPos ≤ mem.capacity) ∧
    gapLengths mem.capacity 0 (defrag mem).blocks =
      List.replicate mem.blocks.length 0 ++ [mem.capacity - totalSize mem.blocks] := by
  have hp := defragLoop_packed mem.capacity mem.blocks 0 0 (packed_of_inv mem h1 h2 h3)
    (le_refl _)
  have hinv := inv_of_packed mem.capacity _ 0 (le_refl _) hp
  refine ⟨hinv, ?_, ?_⟩
  · intro b hb
    have hsum := defragLoop_getLast mem.blocks 0 b hb
    have hmem : b ∈ defragLoop 0 mem.blocks := List.mem_of_getLast?_eq_some hb
    have := Packed.mem hp b hmem
    unfold Address.endPos
    omega
  · have := defragLoop_gaps mem.capacity mem.blocks 0
    simpa [defrag] using this

/-- Witness for C11: the seeded state. -/
theorem defrag_preserves_invariants_witness :
    (I1 (defrag initMem) ∧ I2 (defrag initMem) ∧ I3 (defrag initMem)) ∧
    (∀ b, (defrag initMem).blocks.getLast? = some b →
      b.endPos = totalSize initMem.blocks ∧ b.endPos ≤ initMem.capacity) ∧
    gapLengths initMem.capacity 0 (defrag initMem).blocks =
      List.replicate initMem.blocks.length 0 ++ [initMem.capacity - totalSize initMem.blocks] :=
  defrag_preserves_invariants initMem (by decide) (by decide) (by decide)

/-- C19: the defragment loop is idempotent: applying it twice gives the same
state as applying it once, for every region list. -/
theorem defrag_idempotent (mem : Memory) : defrag (defrag mem) = defrag mem := by
  unfold defrag
  simp only []
  rw [defragLoop_idem]

/-! ## Further claims on `tryFreeMem` -/

theorem free_rejected_input (mem : Memory) (pos size : Int)
    (h : ¬ freeAccepted mem pos size) : tryFreeMem mem pos size = mem := by
  unfold freeAccepted at h
  unfold tryFreeMem
  simp only []
  rw [if_neg h]

/-- C13: for every state and all integers `pos`, `size`, when `pos < 0`,
`pos >= capacity`, `pos + size <= 0` or `pos + size > capacity`, `tryFreeMem`
leaves the state exactly as it was. -/
theorem free_rejected_unchanged (mem : Memory) (pos size : Int)
    (h : pos < 0 ∨ pos ≥ mem.capacity ∨ pos + size ≤ 0 ∨ pos + size > mem.capacity) :
    tryFreeMem mem pos size = mem := by
  unfold tryFreeMem
  simp only []
  rw [if_neg (by omega)]

/-- Witness for C13: `Free(30,2)` on capacity 25. -/
theorem free_rejected_unchanged_witness : tryFreeMem initMem 30 2 = initMem :=
  free_rejected_unchanged initMem 30 2 (Or.inr (Or.inl (by decide)))

theorem eraseFirstNonPos_of_pos :
    ∀ l : List Address, (∀ a ∈ l, 0 < a.size) → eraseFirstNonPos l = none := by
  intro l
  induction l with
  | nil => intro _; rfl
  | cons e rest ih =>
    intro h
    have he := h e (List.mem_cons_self _ _)
    unfold eraseFirstNonPos
    rw [if_neg (by omega), ih (fun a ha => h a (List.mem_cons_of_mem _ ha))]
    rfl

/-- C15: for every region list the restart-scan cleanup loop terminates (it is a
total function, and the scan that ends it finds no region with `size <= 0`),
and its result equals the single order-preserving filtering pass that keeps
exactly the regions with `size > 0`. -/
theorem cleanup_refines_single_pass (l : List Address) :
    cleanup l = cleanupSinglePass l ∧ eraseFirstNonPos (cleanup l) = none ∧
      (∀ a, a ∈ cleanup l ↔ a ∈ l ∧ a.size > 0) ∧ (cleanup l).Sublist l := by
  have hf := cleanup_eq_filter l
  refine ⟨hf, ?_, ?_, ?_⟩
  · rw [hf]
    apply eraseFirstNonPos_of_pos
    intro a ha
    rw [List.mem_filter] at ha
    simpa using ha.2
  · intro a
    rw [hf, List.mem_filter]
    simp
  · rw [hf]
    exact List.filter_sublist _

/-! ## The rule conditions on a region the range does not reach -/

theorem freeBlock_rules (pos end_ : Int) (b : Address) :
    freeBlock pos end_ b =
      if rule1 pos end_ b then [⟨b.pos, 0⟩]
      else if rule2 pos end_ b then [⟨end_, b.pos + b.size - end_⟩]
      else if rule3 pos end_ b then [⟨b.pos, pos - b.pos⟩]
      else if rule4 pos end_ b then
        [⟨end_, b.pos + b.size - end_⟩, ⟨b.pos, pos - b.pos⟩]
      else [b] := rfl

/-- C16 as stated fails: for the region `(8,5)` and the accepted `Free(5,3)` the
range ends where the region starts (`end <= bstart`), and the condition of the
second rule, `pos < bstart && end >= bstart`, is true. -/
theorem rule2_true_on_touching_range :
    ¬ (0 < (⟨8, 5⟩ : Address).size → freeAccepted initMem 5 3 → (0 : Int) < 3 →
        ((5 : Int) + 3 ≤ (⟨8, 5⟩ : Address).pos ∨
          (5 : Int) ≥ (⟨8, 5⟩ : Address).pos + (⟨8, 5⟩ : Address).size) →
        (¬ rule1 5 (5 + 3) ⟨8, 5⟩ ∧ ¬ rule2 5 (5 + 3) ⟨8, 5⟩ ∧ ¬ rule3 5 (5 + 3) ⟨8, 5⟩ ∧
          ¬ rule4 5 (5 + 3) ⟨8, 5⟩) ∧
        freeBlock 5 (5 + 3) ⟨8, 5⟩ = [⟨8, 5⟩]) := by
  decide

/-- C16 amended: for a region of positive length and an accepted `Free(pos,size)`
with `size > 0` and `end = pos + size`, if `end <= bstart` or `pos >= bend` then
the conditions of rules 1, 3 and 4 are false, the condition of rule 2 is true
exactly when `end = bstart` (so none of the four is true when `end < bstart` or
`pos >= bend`), and in every case the region's start and length are left as they
were. -/
theorem free_rules_on_unreached_region (mem : Memory) (b : Address) (pos size : Int)
    (hb : 0 < b.size) (_hacc : freeAccepted mem pos size) (hs : 0 < size)
    (h : pos + size ≤ b.pos ∨ pos ≥ b.pos + b.size) :
    ¬ rule1 pos (pos + size) b ∧ (rule2 pos (pos + size) b ↔ pos + size = b.pos) ∧
      ¬ rule3 pos (pos + size) b ∧ ¬ rule4 pos (pos + size) b ∧
      freeBlock pos (pos + size) b = [b] := by
  refine ⟨?_, ?_, ?_, ?_, ?_⟩
  · unfold rule1; omega
  · unfold rule2; omega
  · unfold rule3; omega
  · unfold rule4; omega
  · apply freeBlock_no_overlap pos (pos + size) b hb (by omega)
    unfold intersects
    omega

/-- Witness for the amended C16: the region `(8,5)` and `Free(5,3)`, where rule 2
is taken and writes back `(8,5)`. -/
theorem free_rules_on_unreached_region_witness :
    ¬ rule1 5 (5 + 3) ⟨8, 5⟩ ∧ (rule2 5 (5 + 3) ⟨8, 5⟩ ↔ (5 : Int) + 3 = (⟨8, 5⟩ : Address).pos) ∧
      ¬ rule3 5 (5 + 3) ⟨8, 5⟩ ∧ ¬ rule4 5 (5 + 3) ⟨8, 5⟩ ∧
      freeBlock 5 (5 + 3) ⟨8, 5⟩ = [⟨8, 5⟩] :=
  free_rules_on_unreached_region initMem ⟨8, 5⟩ 5 3 (by decide) (by decide) (by decide)
    (Or.inl (by decide))

/-! ## Covered addresses and occupancy -/

theorem covers_nil (x : Int) : covers [] x ↔ False := by
  unfold covers; simp

theorem covers_cons (a : Address) (l : List Address) (x : Int) :
    covers (a :: l) x ↔ (a.pos ≤ x ∧ x < a.pos + a.size) ∨ covers l x := by
  unfold covers; simp

theorem covers_append (l1 l2 : List Address) (x : Int) :
    covers (l1 ++ l2) x ↔ covers l1 x ∨ covers l2 x := by
  induction l1 with
  | nil => simp [covers_nil]
  | cons a rest ih => simp only [List.cons_append, covers_cons, ih, or_assoc]

theorem covers_filter (l : List Address) (x : Int) :
    covers (l.filter (fun a => decide (0 < a.size))) x ↔ covers l x := by
  induction l with
  | nil => simp
  | cons a rest ih =>
    by_cases ha : 0 < a.size
    · simp only [List.filter_cons, ha, decide_True, if_true, covers_cons, ih]
    · simp only [List.filter_cons, ha, decide_False, covers_cons, ih, Bool.false_eq_true,
        if_false]
      constructor
      · intro h; exact Or.inr h
      · rintro (h | h)
        · omega
        · exact h

theorem freeBlock_covers (pos end_ : Int) (b : Address) (hb : 0 < b.size) (hlt : pos < end_)
    (x : Int) :
    covers (freeBlock pos end_ b) x ↔
      (b.pos ≤ x ∧ x < b.pos + b.size) ∧ ¬ (pos ≤ x ∧ x < end_) := by
  unfold freeBlock
  simp only []
  by_cases c1 : pos ≤ b.pos ∧ end_ ≥ b.pos + b.size
  · rw [if_pos c1]
    simp only [covers_cons, covers_nil, or_false]
    omega
  · rw [if_neg c1]
    by_cases c2 : pos < b.pos ∧ end_ ≥ b.pos
    · rw [if_pos c2]
      simp only [covers_cons, covers_nil, or_false]
      omega
    · rw [if_neg c2]
      by_cases c3 : pos < b.pos + b.size ∧ end_ ≥ b.pos + b.size
      · rw [if_pos c3]
        simp only [covers_cons, covers_nil, or_false]
        omega
      · rw [if_neg c3]
        by_cases c4 : pos ≥ b.pos ∧ end_ ≤ b.pos + b.size
        · rw [if_pos c4]
          simp only [covers_cons, covers_nil, or_false]
          omega
        · rw [if_neg c4]
          simp only [covers_cons, covers_nil, or_false]
          omega

theorem freeScan_covers (pos end_ : Int) (hlt : pos < end_) (x : Int) :
    ∀ l : List Address, (∀ b ∈ l, 0 < b.size) →
      (covers (freeScan pos end_ l) x ↔ covers l x ∧ ¬ (pos ≤ x ∧ x < end_)) := by
  intro l
  induction l with
  | nil => intro _; simp [freeScan, covers_nil]
  | cons b rest ih =>
    intro h
    have hb := freeBlock_covers pos end_ b (h b (List.mem_cons_self _ _)) hlt x
    have hr := ih (fun c hc => h c (List.mem_cons_of_mem _ hc))
    unfold freeScan
    rw [covers_append, covers_cons, hb, hr]
    constructor
    · rintro (⟨h1, h2⟩ | ⟨h1, h2⟩)
      · exact ⟨Or.inl h1, h2⟩
      · exact ⟨Or.inr h1, h2⟩
    · rintro ⟨h1 | h1, h2⟩
      · exact Or.inl ⟨h1, h2⟩
      · exact Or.inr ⟨h1, h2⟩

/-- C17: on a state satisfying I1-I4, after an accepted `Free(pos,size)` with
`size > 0` an address is covered by some region exactly when it was covered
before and does not lie in `[pos, pos + size)`. -/
theorem free_removes_exactly_range (mem : Memory) (pos size : Int)
    (_h1 : I1 mem) (_h2 : I2 mem) (h3 : I3 mem) (_h4 : I4 mem)
    (hacc : freeAccepted mem pos size) (hs : 0 < size) :
    ∀ x : Int, covers (tryFreeMem mem pos size).blocks x ↔
      covers mem.blocks x ∧ ¬ (pos ≤ x ∧ x < pos + size) := by
  intro x
  rw [tryFreeMem_blocks mem pos size hacc, covers_filter]
  exact freeScan_covers pos (pos + size) (by omega) x mem.blocks (fun b hb => (h3 b hb).2.2)

/-- Witness for C17: `Free(9,2)` on the seeded state. -/
theorem free_removes_exactly_range_witness :
    freeAccepted initMem 9 2 ∧
    ∀ x : Int, covers (tryFreeMem initMem 9 2).blocks x ↔
      covers initMem.blocks x ∧ ¬ (9 ≤ x ∧ x < 9 + 2) :=
  ⟨by decide,
    free_removes_exactly_range initMem 9 2 (by decide) (by decide) (by decide) (by decide)
      (by decide) (by decide)⟩

theorem totalSize_append (l1 l2 : List Address) :
    totalSize (l1 ++ l2) = totalSize l1 + totalSize l2 := by
  unfold totalSize
  simp

theorem totalSize_filter_le (l : List Address) (h : ∀ a ∈ l, 0 ≤ a.size) :
    totalSize (l.filter (fun a => decide (0 < a.size))) ≤ totalSize l := by
  induction l with
  | nil => simp
  | cons a rest ih =>
    have ha := h a (List.mem_cons_self _ _)
    have hr := ih (fun c hc => h c (List.mem_cons_of_mem _ hc))
    by_cases hp : 0 < a.size
    · simp only [List.filter_cons, hp, decide_True, if_true]
      unfold totalSize at hr ⊢
      simp only [List.map_cons, List.sum_cons]
      omega
    · simp only [List.filter_cons, hp, decide_False]
      unfold totalSize at hr ⊢
      simp only [List.map_cons, List.sum_cons]
      simp only [Bool.false_eq_true, if_false]
      omega

theorem freeBlock_total (pos end_ : Int) (b : Address) (hb : 0 < b.size) (hle : pos ≤ end_) :
    totalSize (freeBlock pos end_ b) ≤ b.size := by
  unfold freeBlock totalSize
  simp only []
  split_ifs <;> simp <;> omega

theorem freeScan_total (pos end_ : Int) (hle : pos ≤ end_) :
    ∀ l : List Address, (∀ b ∈ l, 0 < b.size) →
      totalSize (freeScan pos end_ l) ≤ totalSize l := by
  intro l
  induction l with
  | nil => intro _; simp [freeScan]
  | cons b rest ih =>
    intro h
    have hb := freeBlock_total pos end_ b (h b (List.mem_cons_self _ _)) hle
    have hr := ih (fun c hc => h c (List.mem_cons_of_mem _ hc))
    unfold freeScan
    rw [totalSize_append]
    have : totalSize (b :: rest) = b.size + totalSize rest := by
      unfold totalSize; simp
    omega

/-- With `size >= 0` an accepted `Free` does not grow the sum of the lengths. -/
theorem free_total_le_of_nonneg (mem : Memory) (pos size : Int)
    (h3 : I3 mem) (hacc : freeAccepted mem pos size) (hs : 0 ≤ size) :
    totalSize (tryFreeMem mem pos size).blocks ≤ totalSize mem.blocks := by
  rw [tryFreeMem_blocks mem pos size hacc]
  refine le_trans (totalSize_filter_le _ ?_)
    (freeScan_total pos (pos + size) (by omega) mem.blocks (fun b hb => (h3 b hb).2.2))
  intro a ha
  obtain ⟨c, hc, hac⟩ := mem_freeScan pos (pos + size) a mem.blocks ha
  exact (freeBlock_props pos (pos + size) c (h3 c hc).2.2 (by omega) a hac).2.2.1

/-- C18, the code on a negative size: on the seeded state (I1-I4 hold) the
request `Free(20,-10)` passes the input check, and the sum of the region lengths
goes from 9 to 19. -/
theorem free_negative_size_grows_total :
    (I1 initMem ∧ I2 initMem ∧ I3 initMem ∧ I4 initMem) ∧
    freeAccepted initMem 20 (-10) ∧
    totalSize initMem.blocks = 9 ∧
    totalSize (tryFreeMem initMem 20 (-10)).blocks = 19 ∧
    ¬ totalSize (tryFreeMem initMem 20 (-10)).blocks ≤ totalSize initMem.blocks := by
  rw [tryFreeMem_blocks initMem 20 (-10) (by decide)]
  decide

/-! ## Allocation after a sequence of calls -/

/-- C12, the code on a reachable state: after `Free(9,2)` (size > 0) on the
seeded state the list is `[(1,3),(11,2),(8,1),(22,1)]`; `Allocate(5)` then
inserts `(4,5)`, which intersects the region `(8,1)` already in the list. -/
theorem alloc_overlaps_after_interior_split :
    (∀ op ∈ [Op.free 9 2], op.positiveFree) ∧
    (run initMem [Op.free 9 2]).blocks = [⟨1, 3⟩, ⟨11, 2⟩, ⟨8, 1⟩, ⟨22, 1⟩] ∧
    (tryAllocMem (run initMem [Op.free 9 2]) 5).blocks =
      [⟨1, 3⟩, ⟨4, 5⟩, ⟨11, 2⟩, ⟨8, 1⟩, ⟨22, 1⟩] ∧
    (⟨8, 1⟩ : Address) ∈ (run initMem [Op.free 9 2]).blocks ∧
    intersects ⟨8, 1⟩ 4 (4 + 5) := by
  have hr : run initMem [Op.free 9 2] = ⟨[⟨1, 3⟩, ⟨11, 2⟩, ⟨8, 1⟩, ⟨22, 1⟩], 25⟩ := by
    show tryFreeMem initMem 9 2 = _
    rw [tryFreeMem_eq initMem 9 2 (by decide)]
    decide
  rw [hr]
  decide

/-! ## Text that supplies no number -/

theorem dropWhile_isSpaceChar_blank :
    ∀ cs : List Char, (∀ c ∈ cs, isSpaceChar c = true) → cs.dropWhile isSpaceChar = [] := by
  intro cs
  induction cs with
  | nil => intro _; rfl
  | cons c rest ih =>
    intro h
    rw [List.dropWhile_cons, if_pos (h c (List.mem_cons_self _ _))]
    exact ih (fun d hd => h d (List.mem_cons_of_mem _ hd))

/-- On an empty or blank text the extraction assigns nothing: the variable keeps
the value it held. -/
theorem extractInt_blank (cs : List Char) (h : ∀ c ∈ cs, isSpaceChar c = true) (old : Int) :
    (extractInt ⟨cs, true⟩ old).2 = old := by
  unfold extractInt
  simp only [Bool.true_eq_false, if_false]
  rw [dropWhile_isSpaceChar_blank cs h]

/-- On an empty or blank text `tryAllocMem` runs its body on the value the
uninitialised local `size` happens to hold. -/
theorem tryAllocMemText_blank (mem : Memory) (s : String)
    (h : ∀ c ∈ s.toList, isSpaceChar c = true) (size0 : Int) :
    tryAllocMemText mem s size0 = tryAllocMem mem size0 := by
  unfold tryAllocMemText
  simp only []
  rw [extractInt_blank s.toList h size0]

/-- C14, the code on text without the needed numbers: on the seeded state
`tryAllocMem` with the empty text or a blank text allocates 4 cells when the
unassigned `size` holds 4 and does nothing when it holds 0; `tryFreeMem` with
the empty text frees `(8,5)` when the unassigned `pos`, `size` hold 8, 5, and
with the text `8` frees `(8,5)` when the unassigned `size` holds 5 and does
nothing when it holds 0. -/
theorem text_without_numbers_uses_unassigned :
    (tryAllocMemText initMem "" 4).blocks = [⟨1, 3⟩, ⟨4, 4⟩, ⟨8, 5⟩, ⟨22, 1⟩] ∧
    tryAllocMemText initMem "" 0 = initMem ∧
    (tryAllocMemText initMem "  " 4).blocks = [⟨1, 3⟩, ⟨4, 4⟩, ⟨8, 5⟩, ⟨22, 1⟩] ∧
    tryAllocMemText initMem "  " 0 = initMem ∧
    (tryFreeMemText initMem "" 8 5).blocks = [⟨1, 3⟩, ⟨22, 1⟩] ∧
    tryFreeMemText initMem "" 0 0 = initMem ∧
    (tryFreeMemText initMem "8" 0 5).blocks = [⟨1, 3⟩, ⟨22, 1⟩] ∧
    tryFreeMemText initMem "8" 0 0 = initMem := by
  have a0 : ∀ old : Int, extractInt ⟨"".toList, true⟩ old = (⟨[], false⟩, old) := by
    intro old; rfl
  have a1 : ∀ old : Int, extractInt ⟨[], false⟩ old = (⟨[], false⟩, old) := by
    intro old; rfl
  have a8 : extractInt ⟨"8".toList, true⟩ 0 = (⟨[], false⟩, 8) := by decide
  have e1 : tryFreeMemText initMem "" 8 5 = tryFreeMem initMem 8 5 := by
    unfold tryFreeMemText; simp only [a0, a1]
  have e2 : tryFreeMemText initMem "" 0 0 = tryFreeMem initMem 0 0 := by
    unfold tryFreeMemText; simp only [a0, a1]
  have e3 : tryFreeMemText initMem "8" 0 5 = tryFreeMem initMem 8 5 := by
    unfold tryFreeMemText; simp only [a8, a1]
  have e4 : tryFreeMemText initMem "8" 0 0 = tryFreeMem initMem 8 0 := by
    unfold tryFreeMemText; simp only [a8, a1]
  have f1 : tryFreeMem initMem 8 5 = ⟨[⟨1, 3⟩, ⟨22, 1⟩], 25⟩ := by
    rw [tryFreeMem_eq initMem 8 5 (by decide)]
    decide
  have f2 : tryFreeMem initMem 0 0 = initMem :=
    free_rejected_input initMem 0 0 (by decide)
  have f3 : tryFreeMem initMem 8 0 = initMem := by
    rw [tryFreeMem_eq initMem 8 0 (by decide)]
    decide
  rw [e1, e2, e3, e4, f1, f2, f3]
  decide

end MemSim
